import Mathlib

/-!
Shallow embedding of the probability-evaluator core of the `ds_bookcamp`
notebooks (`section_1.ipynb` and the unnamed numpy-simulation notebook).

A Python `set` is embedded as the list of its (distinct) elements; a Python
`dict` used as a weighted sample space is embedded as the list of its
(distinct) keys together with its value function.  Python's true division
on numbers is exact on the inputs appearing here, so it is embedded as
division of rationals; it raises `ZeroDivisionError` when the denominator
is zero, which is embedded with `Except`.
-/

deriving instance DecidableEq for Except

namespace DSBookcamp

/-- The argument type of `compute_event_probability`: either a plain set of
outcomes (cell 16 branches on `type(generic_sample_space) == type(set())`)
or a weighted mapping from outcomes to integer counts. -/
inductive GenericSampleSpace (α : Type) where
  | uset (elems : List α)
  | wmap (keys : List α) (weight : α → ℕ)

/-- Python true division, raising `ZeroDivisionError` on a zero denominator. -/
def pyDiv (a b : ℚ) : Except String ℚ :=
  if b = 0 then .error "ZeroDivisionError" else .ok (a / b)

/-- `get_matching_event(event_condition, sample_space)` (cell 7):
`set([outcome for outcome in sample_space if event_condition(outcome)])`.
Iterating a Python dict iterates its keys, so the mapping form filters keys. -/
def get_matching_event {α : Type} (event_condition : α → Bool) :
    GenericSampleSpace α → List α
  | .uset elems => elems.filter event_condition
  | .wmap keys _ => keys.filter event_condition

/-- `compute_event_probability(event_condition, generic_sample_space)`
(cell 16): filters the space by the condition, then returns
`len(event)/len(generic_sample_space)` for a set, and
`sum(generic_sample_space[outcome] for outcome in event) /
sum(generic_sample_space.values())` for a mapping. -/
def compute_event_probability {α : Type} (event_condition : α → Bool)
    (generic_sample_space : GenericSampleSpace α) : Except String ℚ :=
  match generic_sample_space with
  | .uset elems =>
      let event := get_matching_event event_condition (.uset elems)
      pyDiv (event.length : ℚ) (elems.length : ℚ)
  | .wmap keys weight =>
      let event := get_matching_event event_condition (.wmap keys weight)
      pyDiv (((event.map weight).sum : ℕ) : ℚ) (((keys.map weight).sum : ℕ) : ℚ)

/-- `is_in_interval(number, minimum, maximum)` (cell 57):
`minimum <= number <= maximum`. -/
def is_in_interval (number minimum maximum : ℤ) : Bool :=
  decide (minimum ≤ number ∧ number ≤ maximum)

/-- `has_sum_of_21(outcome)` (cell 37): `sum(outcome) == 21`. -/
def has_sum_of_21 (outcome : List ℕ) : Bool :=
  outcome.sum == 21

/-- `itertools.product(possible, repeat=n)`: all length-`n` sequences over
`possible`, as in cells 26 and 34. -/
def product_repeat {α : Type} (possible : List α) : ℕ → List (List α)
  | 0 => [[]]
  | n + 1 => possible.flatMap (fun x => (product_repeat possible n).map (fun xs => x :: xs))

/-- `possible_rolls = list(range(1,7))` (cell 32). -/
def possible_rolls : List ℕ := [1, 2, 3, 4, 5, 6]

/-- `sample_space = set(product(possible_rolls, repeat=6))` (cell 34).  The
length-6 sequences over a duplicate-free base are pairwise distinct, so the
set has exactly the elements of the product list. -/
def dice_sample_space : GenericSampleSpace (List ℕ) :=
  .uset (product_repeat possible_rolls 6)

/-- The head count of one tuple of coin flips (cell 61, with `true` standing
for `'Heads'`): `len([outcome for outcome in coin_flips if outcome == 'Heads'])`. -/
def heads_count (coin_flips : List Bool) : ℕ :=
  (coin_flips.filter (fun outcome => outcome == true)).length

/-- The key list of the `defaultdict` built by `generate_coin_sample_space`
(cell 61): the distinct head counts over all length-`num_flips` flip tuples. -/
def coin_keys (num_flips : ℕ) : List ℕ :=
  ((product_repeat [true, false] num_flips).map heads_count).dedup

/-- The value function of that `defaultdict`: each key's value is the number
of flip tuples having that head count. -/
def coin_weight (num_flips : ℕ) (k : ℕ) : ℕ :=
  ((product_repeat [true, false] num_flips).map heads_count).count k

/-- `generate_coin_sample_space(num_flips)` (cell 61): iterates over
`product(['Heads', 'Tails'], repeat=num_flips)` incrementing
`weighted_sample_space[heads_count]`, yielding the mapping from each
occurring head count to its multiplicity. -/
def generate_coin_sample_space (num_flips : ℕ) : GenericSampleSpace ℕ :=
  .wmap (coin_keys num_flips) (coin_weight num_flips)

/-- `frequency_heads(coin_flip_sequence)` (numpy notebook, cell 5):
`len([head for head in coin_flip_sequence if head == 1]) / len(coin_flip_sequence)`. -/
def frequency_heads (coin_flip_sequence : List ℕ) : Except String ℚ :=
  let total_heads := (coin_flip_sequence.filter (fun head => head == 1)).length
  pyDiv (total_heads : ℚ) (coin_flip_sequence.length : ℚ)

/-- A weighted mapping is the histogram of a multiset `M` (given as a list
with repetition): its keys are the distinct elements of `M` and each key's
weight is its multiplicity in `M`. -/
def histogram {α : Type} [DecidableEq α] (M : List α) : GenericSampleSpace α :=
  .wmap M.dedup (fun o => M.count o)

/-! ### Helper lemmas -/

theorem pyDiv_eq_ok {a b q : ℚ} (h : pyDiv a b = .ok q) : b ≠ 0 ∧ q = a / b := by
  unfold pyDiv at h
  split at h
  · exact Except.noConfusion h
  · exact ⟨by assumption, (Except.ok.inj h).symm⟩

theorem pyDiv_ok_of_ne {a b : ℚ} (hb : b ≠ 0) : pyDiv a b = .ok (a / b) := by
  simp [pyDiv, hb]

theorem compute_uset_eq {α : Type} (c : α → Bool) (elems : List α) :
    compute_event_probability c (.uset elems)
      = pyDiv ((elems.filter c).length : ℚ) (elems.length : ℚ) := rfl

theorem compute_wmap_eq {α : Type} (c : α → Bool) (keys : List α) (w : α → ℕ) :
    compute_event_probability c (.wmap keys w)
      = pyDiv ((((keys.filter c).map w).sum : ℕ) : ℚ)
              (((keys.map w).sum : ℕ) : ℚ) := rfl

theorem length_filter_add_length_filter_not {α : Type} (c : α → Bool) (l : List α) :
    (l.filter c).length + (l.filter (fun o => !(c o))).length = l.length := by
  induction l with
  | nil => rfl
  | cons a l ih => cases hca : c a <;> simp [List.filter_cons, hca] <;> omega

theorem sum_map_filter_add {α : Type} (c : α → Bool) (w : α → ℕ) (l : List α) :
    ((l.filter c).map w).sum + ((l.filter (fun o => !(c o))).map w).sum
      = (l.map w).sum := by
  induction l with
  | nil => rfl
  | cons a l ih => cases hca : c a <;> simp [List.filter_cons, hca] <;> omega

theorem sum_map_filter_le_mono {α : Type} (p q : α → Bool) (w : α → ℕ) (l : List α)
    (h : ∀ x ∈ l, p x = true → q x = true) :
    ((l.filter p).map w).sum ≤ ((l.filter q).map w).sum := by
  induction l with
  | nil => exact Nat.le_refl _
  | cons a l ih =>
    have ih := ih (fun x hx => h x (List.mem_cons_of_mem a hx))
    cases hp : p a with
    | true =>
      have hq := h a (List.mem_cons_self a l) hp
      simp [List.filter_cons, hp, hq]
      omega
    | false =>
      cases hq : q a <;> simp [List.filter_cons, hp, hq] <;> omega

theorem sum_map_filter_le {α : Type} (p : α → Bool) (w : α → ℕ) (l : List α) :
    ((l.filter p).map w).sum ≤ (l.map w).sum := by
  have h := sum_map_filter_le_mono p (fun _ => true) w l (fun x _ _ => rfl)
  simpa using h

/-! ### Claims -/

/-- C3: requesting an event probability over a sample space with zero total
measure (an empty set, or a weighted mapping whose weights sum to zero) fails
with the `ZeroDivisionError` raised by Python's division, which propagates to
the caller; over any space with positive total measure the computation does
not fail. -/
theorem empty_space_error {α : Type} (c : α → Bool) :
    (∀ elems : List α,
        compute_event_probability c (.uset elems) = .error "ZeroDivisionError"
          ↔ elems = [])
  ∧ ∀ (keys : List α) (weight : α → ℕ),
        compute_event_probability c (.wmap keys weight) = .error "ZeroDivisionError"
          ↔ (keys.map weight).sum = 0 := by
  constructor
  · intro elems
    rw [compute_uset_eq]
    by_cases h : elems = []
    · subst h
      simp [pyDiv]
    · have hlen : elems.length ≠ 0 := fun hh => h (List.length_eq_zero.mp hh)
      have hcast : ((elems.length : ℚ)) ≠ 0 := Nat.cast_ne_zero.mpr hlen
      simp [pyDiv, hcast, h]
  · intro keys weight
    rw [compute_wmap_eq]
    by_cases h : (keys.map weight).sum = 0
    · simp [pyDiv, h]
    · have hcast : (((keys.map weight).sum : ℕ) : ℚ) ≠ 0 := Nat.cast_ne_zero.mpr h
      unfold pyDiv
      rw [if_neg hcast]
      simp [h]

/-- C4: `get_matching_event` returns exactly the outcomes of the space that
satisfy the condition: for a set-form space the matching elements, for a
mapping-form space the matching keys (weights are ignored); an outcome is in
the result precisely when it is in the space and the condition holds of it. -/
theorem get_matching_event_spec {α : Type} (c : α → Bool) (o : α) :
    (∀ elems : List α,
        o ∈ get_matching_event c (.uset elems) ↔ o ∈ elems ∧ c o = true)
  ∧ ∀ (keys : List α) (weight : α → ℕ),
        o ∈ get_matching_event c (.wmap keys weight) ↔ o ∈ keys ∧ c o = true := by
  constructor <;> intros <;> simp [get_matching_event, List.mem_filter]

/-- C7: whenever `compute_event_probability` returns a value (i.e. on every
sample space of positive total measure, in either form), that value lies in
the closed interval `[0, 1]`. -/
theorem probability_in_unit_interval {α : Type} (c : α → Bool)
    (sp : GenericSampleSpace α) (p : ℚ)
    (h : compute_event_probability c sp = .ok p) : 0 ≤ p ∧ p ≤ 1 := by
  cases sp with
  | uset elems =>
    rw [compute_uset_eq] at h
    obtain ⟨hb, hq⟩ := pyDiv_eq_ok h
    subst hq
    have hpos : (0 : ℚ) < (elems.length : ℚ) :=
      lt_of_le_of_ne (Nat.cast_nonneg _) (Ne.symm hb)
    refine ⟨div_nonneg (Nat.cast_nonneg _) (le_of_lt hpos), ?_⟩
    rw [div_le_one hpos]
    exact_mod_cast List.length_filter_le c elems
  | wmap keys weight =>
    rw [compute_wmap_eq] at h
    obtain ⟨hb, hq⟩ := pyDiv_eq_ok h
    subst hq
    have hpos : (0 : ℚ) < (((keys.map weight).sum : ℕ) : ℚ) :=
      lt_of_le_of_ne (Nat.cast_nonneg _) (Ne.symm hb)
    refine ⟨div_nonneg (Nat.cast_nonneg _) (le_of_lt hpos), ?_⟩
    rw [div_le_one hpos]
    exact_mod_cast sum_map_filter_le c weight keys

theorem probability_in_unit_interval_witness :
    compute_event_probability (fun o => o == 0) (GenericSampleSpace.uset [0, 1])
        = .ok (1 / 2)
  ∧ 0 ≤ (1 / 2 : ℚ) ∧ (1 / 2 : ℚ) ≤ 1 := by
  have h : compute_event_probability (fun o => o == 0) (GenericSampleSpace.uset [0, 1])
      = .ok (1 / 2) := by
    show pyDiv ((1 : ℕ) : ℚ) ((2 : ℕ) : ℚ) = .ok (1 / 2)
    simp [pyDiv]
  exact ⟨h, probability_in_unit_interval _ _ _ h⟩

/-- C5: over any sample space on which both computations succeed (every
non-empty space, in either form), the probability of a condition and the
probability of its negation sum exactly to `1`, computed over the rationals. -/
theorem complement_rule {α : Type} (c : α → Bool) (sp : GenericSampleSpace α)
    (p q : ℚ)
    (hp : compute_event_probability c sp = .ok p)
    (hq : compute_event_probability (fun o => !(c o)) sp = .ok q) :
    p + q = 1 := by
  cases sp with
  | uset elems =>
    rw [compute_uset_eq] at hp hq
    obtain ⟨hb, hp2⟩ := pyDiv_eq_ok hp
    obtain ⟨-, hq2⟩ := pyDiv_eq_ok hq
    subst hp2 hq2
    rw [div_add_div_same, ← Nat.cast_add,
      length_filter_add_length_filter_not c elems]
    exact div_self hb
  | wmap keys weight =>
    rw [compute_wmap_eq] at hp hq
    obtain ⟨hb, hp2⟩ := pyDiv_eq_ok hp
    obtain ⟨-, hq2⟩ := pyDiv_eq_ok hq
    subst hp2 hq2
    rw [div_add_div_same, ← Nat.cast_add, sum_map_filter_add c weight keys]
    exact div_self hb

theorem complement_rule_witness :
    compute_event_probability (fun o => o == 0) (GenericSampleSpace.uset [0, 1])
        = .ok (1 / 2)
  ∧ compute_event_probability (fun o => !(o == 0)) (GenericSampleSpace.uset [0, 1])
        = .ok (1 / 2)
  ∧ (1 / 2 : ℚ) + 1 / 2 = 1 := by
  have hp : compute_event_probability (fun o => o == 0) (GenericSampleSpace.uset [0, 1])
      = .ok (1 / 2) := by
    show pyDiv ((1 : ℕ) : ℚ) ((2 : ℕ) : ℚ) = .ok (1 / 2)
    simp [pyDiv]
  have hq : compute_event_probability (fun o => !(o == 0)) (GenericSampleSpace.uset [0, 1])
      = .ok (1 / 2) := by
    show pyDiv ((1 : ℕ) : ℚ) ((2 : ℕ) : ℚ) = .ok (1 / 2)
    simp [pyDiv]
  exact ⟨hp, hq, complement_rule (fun o => o == 0) _ _ _ hp hq⟩

/-- C6: widening an inclusive interval `[lo, hi]` to `[lo-1, hi+1]` never
decreases the event probability of the interval condition built from
`is_in_interval`, over any numeric sample space on which the computation
succeeds (every non-empty space, in either form). -/
theorem interval_widening_monotone (sp : GenericSampleSpace ℤ) (lo hi : ℤ)
    (p q : ℚ)
    (hp : compute_event_probability (fun x => is_in_interval x lo hi) sp = .ok p)
    (hq : compute_event_probability
        (fun x => is_in_interval x (lo - 1) (hi + 1)) sp = .ok q) :
    p ≤ q := by
  have himp : ∀ x : ℤ, is_in_interval x lo hi = true →
      is_in_interval x (lo - 1) (hi + 1) = true := by
    intro x hx
    simp only [is_in_interval, decide_eq_true_eq] at hx ⊢
    omega
  cases sp with
  | uset elems =>
    rw [compute_uset_eq] at hp hq
    obtain ⟨hb, hp2⟩ := pyDiv_eq_ok hp
    obtain ⟨-, hq2⟩ := pyDiv_eq_ok hq
    subst hp2 hq2
    have hpos : (0 : ℚ) < (elems.length : ℚ) :=
      lt_of_le_of_ne (Nat.cast_nonneg _) (Ne.symm hb)
    rw [div_le_div_iff_of_pos_right hpos]
    have hlen : (elems.filter (fun x => is_in_interval x lo hi)).length
        ≤ (elems.filter (fun x => is_in_interval x (lo - 1) (hi + 1))).length := by
      rw [← List.countP_eq_length_filter, ← List.countP_eq_length_filter]
      exact List.countP_mono_left (fun x _ h => himp x h)
    exact_mod_cast hlen
  | wmap keys weight =>
    rw [compute_wmap_eq] at hp hq
    obtain ⟨hb, hp2⟩ := pyDiv_eq_ok hp
    obtain ⟨-, hq2⟩ := pyDiv_eq_ok hq
    subst hp2 hq2
    have hpos : (0 : ℚ) < (((keys.map weight).sum : ℕ) : ℚ) :=
      lt_of_le_of_ne (Nat.cast_nonneg _) (Ne.symm hb)
    rw [div_le_div_iff_of_pos_right hpos]
    have hsum := sum_map_filter_le_mono (fun x => is_in_interval x lo hi)
      (fun x => is_in_interval x (lo - 1) (hi + 1)) weight keys
      (fun x _ h => himp x h)
    exact_mod_cast hsum

theorem interval_widening_monotone_witness :
    compute_event_probability (fun x => is_in_interval x 0 5)
        (GenericSampleSpace.uset [3]) = .ok 1
  ∧ compute_event_probability (fun x => is_in_interval x (0 - 1) (5 + 1))
        (GenericSampleSpace.uset [3]) = .ok 1
  ∧ (1 : ℚ) ≤ 1 := by
  have hp : compute_event_probability (fun x => is_in_interval x 0 5)
      (GenericSampleSpace.uset [3]) = .ok 1 := by
    show pyDiv ((1 : ℕ) : ℚ) ((1 : ℕ) : ℚ) = .ok 1
    simp [pyDiv]
  have hq : compute_event_probability (fun x => is_in_interval x (0 - 1) (5 + 1))
      (GenericSampleSpace.uset [3]) = .ok 1 := by
    show pyDiv ((1 : ℕ) : ℚ) ((1 : ℕ) : ℚ) = .ok 1
    simp [pyDiv]
  exact ⟨hp, hq, interval_widening_monotone _ 0 5 1 1 hp hq⟩

/-- C1: over a non-empty set-form space `compute_event_probability` returns
the cardinality of the matching subset divided by the cardinality of the
space; over a weighted mapping of positive total weight it returns the sum of
the weights of the matching keys divided by the sum of all weights. -/
theorem compute_event_probability_formula {α : Type} [DecidableEq α]
    (c : α → Bool) (elems keys : List α) (weight : α → ℕ)
    (hnd : elems.Nodup) (hne : elems ≠ [])
    (hknd : keys.Nodup) (hw : 0 < (keys.map weight).sum) :
    compute_event_probability c (.uset elems)
      = .ok (((elems.toFinset.filter (fun o => c o = true)).card : ℚ)
              / (elems.toFinset.card : ℚ))
  ∧ compute_event_probability c (.wmap keys weight)
      = .ok (((∑ o ∈ keys.toFinset.filter (fun o => c o = true), weight o : ℕ) : ℚ)
              / ((∑ o ∈ keys.toFinset, weight o : ℕ) : ℚ)) := by
  constructor
  · have hlen : elems.length ≠ 0 := fun hh => hne (List.length_eq_zero.mp hh)
    have hcast : ((elems.length : ℕ) : ℚ) ≠ 0 := Nat.cast_ne_zero.mpr hlen
    rw [compute_uset_eq, pyDiv_ok_of_ne hcast]
    have hfc : (elems.toFinset.filter (fun o => c o = true)).card
        = (elems.filter c).length := by
      rw [← List.toFinset_filter, List.toFinset_card_of_nodup (hnd.filter c)]
    rw [hfc, List.toFinset_card_of_nodup hnd]
  · have hcast : (((keys.map weight).sum : ℕ) : ℚ) ≠ 0 :=
      Nat.cast_ne_zero.mpr (Nat.pos_iff_ne_zero.mp hw)
    rw [compute_wmap_eq, pyDiv_ok_of_ne hcast]
    have hfsum : (∑ o ∈ keys.toFinset.filter (fun o => c o = true), weight o)
        = ((keys.filter c).map weight).sum := by
      rw [← List.toFinset_filter, List.sum_toFinset weight (hknd.filter c)]
    have hssum : (∑ o ∈ keys.toFinset, weight o) = (keys.map weight).sum :=
      List.sum_toFinset _ hknd
    rw [hfsum, hssum]

theorem compute_event_probability_formula_witness :
    (([0, 1] : List ℕ).Nodup ∧ ([0, 1] : List ℕ) ≠ [] ∧
      ([0, 1] : List ℕ).Nodup ∧ 0 < (([0, 1] : List ℕ).map (fun o => 2 * o + 1)).sum)
  ∧ (compute_event_probability (fun o => o == 0) (GenericSampleSpace.uset [0, 1])
        = .ok (((([0, 1] : List ℕ).toFinset.filter
              (fun o => (o == 0) = true)).card : ℚ)
            / ((([0, 1] : List ℕ).toFinset.card : ℕ) : ℚ))
      ∧ compute_event_probability (fun o => o == 0)
            (GenericSampleSpace.wmap [0, 1] (fun o => 2 * o + 1))
          = .ok (((∑ o ∈ ([0, 1] : List ℕ).toFinset.filter
                (fun o => (o == 0) = true), (2 * o + 1) : ℕ) : ℚ)
              / ((∑ o ∈ ([0, 1] : List ℕ).toFinset, (2 * o + 1) : ℕ) : ℚ))) := by
  refine ⟨⟨by decide, by decide, by decide, by decide⟩, ?_⟩
  exact compute_event_probability_formula (fun o => o == 0) [0, 1] [0, 1]
    (fun o => 2 * o + 1) (by decide) (by decide) (by decide) (by decide)

/-- C2: if a weighted mapping is the histogram of a multiset `M` of outcomes
(its keys are exactly the distinct elements of `M` and each key's weight is
its multiplicity in `M` — in particular weight one per element when `M` has
no repetition), then the mapping-form computation agrees with the set-form
computation over `M` for every condition. -/
theorem histogram_equivalence {α : Type} [DecidableEq α] (c : α → Bool)
    (M keys : List α) (weight : α → ℕ) (hknd : keys.Nodup)
    (hmem : ∀ o, o ∈ keys ↔ o ∈ M)
    (hw : ∀ o ∈ keys, weight o = M.count o) :
    compute_event_probability c (.wmap keys weight)
      = compute_event_probability c (.uset M) := by
  rw [compute_wmap_eq, compute_uset_eq]
  have hperm : keys.Perm M.dedup :=
    (List.perm_ext_iff_of_nodup hknd M.nodup_dedup).mpr
      (fun a => by rw [hmem a, List.mem_dedup])
  have hnum : ((keys.filter c).map weight).sum = (M.filter c).length := by
    have h1 : ((keys.filter c).map weight).sum
        = ((keys.filter c).map (fun o => M.count o)).sum :=
      congrArg List.sum
        (List.map_congr_left (fun o ho => hw o (List.mem_of_mem_filter ho)))
    have h2 : ((keys.filter c).map (fun o => M.count o)).sum
        = (((M.dedup.filter c)).map (fun o => M.count o)).sum :=
      ((hperm.filter c).map _).sum_eq
    rw [h1, h2, List.sum_map_count_dedup_filter_eq_countP,
      List.countP_eq_length_filter]
  have hden : (keys.map weight).sum = M.length := by
    have h1 : (keys.map weight).sum = (keys.map (fun o => M.count o)).sum :=
      congrArg List.sum (List.map_congr_left (fun o ho => hw o ho))
    have h2 : (keys.map (fun o => M.count o)).sum
        = (M.dedup.map (fun o => M.count o)).sum := (hperm.map _).sum_eq
    rw [h1, h2, List.sum_map_count_dedup_eq_length]
  rw [hnum, hden]

theorem histogram_equivalence_witness :
    (([0, 1] : List ℕ).Nodup
      ∧ (∀ o : ℕ, o ∈ ([0, 1] : List ℕ) ↔ o ∈ ([0, 0, 1] : List ℕ))
      ∧ ∀ o ∈ ([0, 1] : List ℕ), ([0, 0, 1] : List ℕ).count o
          = ([0, 0, 1] : List ℕ).count o)
  ∧ compute_event_probability (fun o => o == 0)
        (GenericSampleSpace.wmap [0, 1] (fun o => ([0, 0, 1] : List ℕ).count o))
      = compute_event_probability (fun o => o == 0)
        (GenericSampleSpace.uset [0, 0, 1]) :=
  ⟨⟨by decide, fun o => by simp [List.mem_cons], fun o _ => rfl⟩,
    histogram_equivalence (fun o => o == 0) [0, 0, 1] [0, 1]
      (fun o => ([0, 0, 1] : List ℕ).count o) (by decide)
      (fun o => by simp [List.mem_cons]) (fun o _ => rfl)⟩

/-! ### Counting lemmas for the combinatorial spaces -/

/-- Number of length-`n` sequences over `possible` whose sum is `t`,
computed by recursion on the length. -/
def num_ways (possible : List ℕ) : ℕ → ℕ → ℕ
  | 0, t => if t = 0 then 1 else 0
  | n + 1, t => (possible.map (fun x => if x ≤ t then num_ways possible n (t - x) else 0)).sum

theorem countP_product_repeat_sum (possible : List ℕ) (n t : ℕ) :
    (product_repeat possible n).countP (fun xs => xs.sum == t)
      = num_ways possible n t := by
  induction n generalizing t with
  | zero =>
    simp [product_repeat, num_ways, List.countP, List.countP.go]
    by_cases h : t = 0 <;> simp [h]
    omega
  | succ n ih =>
    simp only [product_repeat, num_ways, List.flatMap, List.countP_flatten,
      List.map_map, Function.comp_def, List.countP_map]
    congr 1
    apply List.map_congr_left
    intro x _
    by_cases h : x ≤ t
    · simp only [if_pos h]
      rw [← ih (t - x)]
      apply List.countP_congr
      intro xs _
      simp only [List.sum_cons, beq_iff_eq]
      omega
    · simp only [if_neg h]
      rw [List.countP_eq_zero]
      intro xs _
      simp only [List.sum_cons, beq_iff_eq]
      omega

theorem length_product_repeat {α : Type} (possible : List α) (n : ℕ) :
    (product_repeat possible n).length = possible.length ^ n := by
  induction n with
  | zero => simp [product_repeat]
  | succ n ih =>
    simp [product_repeat, Function.comp_def, ih, List.map_const',
      List.sum_replicate, pow_succ, Nat.mul_comm, smul_eq_mul]

theorem heads_count_cons_true (s : List Bool) :
    heads_count (true :: s) = heads_count s + 1 := by
  simp [heads_count]

theorem heads_count_cons_false (s : List Bool) :
    heads_count (false :: s) = heads_count s := by
  simp [heads_count]

theorem countP_heads_eq_choose (n k : ℕ) :
    (product_repeat [true, false] n).countP (fun s => heads_count s == k)
      = Nat.choose n k := by
  induction n generalizing k with
  | zero =>
    cases k with
    | zero => simp [product_repeat, heads_count]
    | succ k => simp [product_repeat, heads_count]
  | succ n ih =>
    simp only [product_repeat, List.flatMap_cons, List.flatMap_nil,
      List.append_nil, List.countP_append, List.countP_map, Function.comp_def]
    cases k with
    | zero =>
      have h1 : (product_repeat [true, false] n).countP
          (fun s => heads_count (true :: s) == 0) = 0 := by
        rw [List.countP_eq_zero]
        intro s _
        simp [heads_count_cons_true]
      have h2 : (product_repeat [true, false] n).countP
          (fun s => heads_count (false :: s) == 0)
          = (product_repeat [true, false] n).countP (fun s => heads_count s == 0) := by
        apply List.countP_congr
        intro s _
        simp [heads_count_cons_false]
      rw [h1, h2, ih 0, Nat.choose_zero_right, Nat.choose_zero_right]
    | succ k =>
      have h1 : (product_repeat [true, false] n).countP
          (fun s => heads_count (true :: s) == k + 1)
          = (product_repeat [true, false] n).countP (fun s => heads_count s == k) := by
        apply List.countP_congr
        intro s _
        simp [heads_count_cons_true]
      have h2 : (product_repeat [true, false] n).countP
          (fun s => heads_count (false :: s) == k + 1)
          = (product_repeat [true, false] n).countP
            (fun s => heads_count s == k + 1) := by
        apply List.countP_congr
        intro s _
        simp [heads_count_cons_false]
      rw [h1, h2, ih k, ih (k + 1), Nat.choose_succ_succ]

/-- C9: `generate_coin_sample_space(n)` produces the weighted mapping whose
keys are exactly the head counts `0 .. n`, whose value at each key `k` is the
binomial coefficient `C(n, k)` (so in particular `1` at key `n` and `n` at
key `n-1`), and whose values sum to `2 ^ n`. -/
theorem generate_coin_sample_space_spec (num_flips : ℕ) :
    generate_coin_sample_space num_flips
        = .wmap (coin_keys num_flips) (coin_weight num_flips)
  ∧ (∀ k, coin_weight num_flips k = Nat.choose num_flips k)
  ∧ (∀ k, k ∈ coin_keys num_flips ↔ k ≤ num_flips)
  ∧ ((coin_keys num_flips).map (coin_weight num_flips)).sum = 2 ^ num_flips := by
  have hweight : ∀ k, coin_weight num_flips k = Nat.choose num_flips k := by
    intro k
    unfold coin_weight
    rw [List.count_eq_countP, List.countP_map]
    exact countP_heads_eq_choose num_flips k
  have hmem : ∀ k, k ∈ coin_keys num_flips ↔ k ≤ num_flips := by
    intro k
    unfold coin_keys
    rw [List.mem_dedup, ← List.count_pos_iff]
    have hco : ((product_repeat [true, false] num_flips).map heads_count).count k
        = Nat.choose num_flips k := hweight k
    rw [hco]
    constructor
    · intro h
      by_contra hlt
      push_neg at hlt
      rw [Nat.choose_eq_zero_of_lt hlt] at h
      exact Nat.lt_irrefl 0 h
    · exact Nat.choose_pos
  have hsum : ((coin_keys num_flips).map (coin_weight num_flips)).sum
      = 2 ^ num_flips := by
    unfold coin_keys coin_weight
    rw [List.sum_map_count_dedup_eq_length, List.length_map, length_product_repeat]
    rfl
  exact ⟨rfl, hweight, hmem, hsum⟩

/-- C8: over the sample space of all length-6 sequences over `{1,...,6}`
(46656 outcomes) the probability that the sequence sums to 21 is exactly
`4332 / 46656`. -/
theorem dice_sum_21_probability :
    compute_event_probability has_sum_of_21 dice_sample_space
      = .ok (4332 / 46656) := by
  have hcount : (product_repeat possible_rolls 6).countP has_sum_of_21 = 4332 := by
    have h := countP_product_repeat_sum possible_rolls 6 21
    rw [show has_sum_of_21 = (fun xs : List ℕ => xs.sum == 21) from rfl, h]
    decide
  have hlen : (product_repeat possible_rolls 6).length = 46656 := by
    rw [length_product_repeat]
    decide
  rw [show dice_sample_space = .uset (product_repeat possible_rolls 6) from rfl,
    compute_uset_eq, ← List.countP_eq_length_filter, hcount, hlen]
  rw [pyDiv_ok_of_ne (by norm_num)]
  norm_num

/-- C10: for a non-empty sequence of coin flips encoded as 0s and 1s,
`frequency_heads` returns the number of elements equal to 1 divided by the
length of the sequence, a value in `[0, 1]`; for the empty sequence it fails
with Python's `ZeroDivisionError`. -/
theorem frequency_heads_spec (coin_flip_sequence : List ℕ) :
    (coin_flip_sequence = [] →
        frequency_heads coin_flip_sequence = .error "ZeroDivisionError")
  ∧ (coin_flip_sequence ≠ [] →
      ∃ p, frequency_heads coin_flip_sequence = .ok p
        ∧ p = (((coin_flip_sequence.filter (fun head => head == 1)).length : ℕ) : ℚ)
              / ((coin_flip_sequence.length : ℕ) : ℚ)
        ∧ 0 ≤ p ∧ p ≤ 1) := by
  constructor
  · intro h
    subst h
    simp [frequency_heads, pyDiv]
  · intro h
    have hlen : coin_flip_sequence.length ≠ 0 :=
      fun hh => h (List.length_eq_zero.mp hh)
    have hcast : ((coin_flip_sequence.length : ℕ) : ℚ) ≠ 0 := Nat.cast_ne_zero.mpr hlen
    have hok : frequency_heads coin_flip_sequence
        = .ok ((((coin_flip_sequence.filter (fun head => head == 1)).length : ℕ) : ℚ)
              / ((coin_flip_sequence.length : ℕ) : ℚ)) := by
      unfold frequency_heads
      exact pyDiv_ok_of_ne hcast
    refine ⟨_, hok, rfl, ?_, ?_⟩
    · have hpos : (0 : ℚ) < ((coin_flip_sequence.length : ℕ) : ℚ) :=
        lt_of_le_of_ne (Nat.cast_nonneg _) (Ne.symm hcast)
      exact div_nonneg (Nat.cast_nonneg _) (le_of_lt hpos)
    · have hpos : (0 : ℚ) < ((coin_flip_sequence.length : ℕ) : ℚ) :=
        lt_of_le_of_ne (Nat.cast_nonneg _) (Ne.symm hcast)
      rw [div_le_one hpos]
      exact_mod_cast List.length_filter_le _ coin_flip_sequence

theorem frequency_heads_spec_witness :
    (([1, 0, 1] : List ℕ) ≠ [])
  ∧ ∃ p, frequency_heads [1, 0, 1] = .ok p
      ∧ p = (((([1, 0, 1] : List ℕ).filter (fun head => head == 1)).length : ℕ) : ℚ)
            / (((([1, 0, 1] : List ℕ)).length : ℕ) : ℚ)
      ∧ 0 ≤ p ∧ p ≤ 1 :=
  ⟨by decide, (frequency_heads_spec [1, 0, 1]).2 (by decide)⟩

end DSBookcamp
